import Mathlib

/-!
Verification of the crafting planner (craft_planner.py): state representation,
compiled rule checkers and effectors, goal predicate, heuristic, transition
graph, and the time bounded best first search. Python dictionaries are
modelled as association lists, machine integers as Int, and fallible code
(KeyError, IndexError) returns Option / Except values.
-/

namespace CraftPlanner

/-- A State is the OrderedDict of the source: item name to quantity, in a
fixed insertion order. Equality is structural, as the tuple based
comparison of the source makes it. -/
abbrev State := List (String × Int)

/-- Python dict read: `m[k]`. Returns none where the source raises KeyError. -/
def dictGet {κ α : Type} [DecidableEq κ] : List (κ × α) → κ → Option α
  | [], _ => none
  | (k, v) :: rest, key => if k = key then some v else dictGet rest key

/-- Python dict write: `m[k] = v`. Updates the existing entry in place
(keeping its position, as OrderedDict does) or appends a new one. -/
def dictSet {κ α : Type} [DecidableEq κ] : List (κ × α) → κ → α → List (κ × α)
  | [], key, v => [(key, v)]
  | (k, w) :: rest, key, v =>
    if k = key then (key, v) :: rest else (k, w) :: dictSet rest key v

/-- A raw rule: the optional Requires, Consumes and Produces clauses and the
Time field. The source reads only the keys of the Requires clause
(`for requiredItem in rule['Requires']` followed by a state lookup), so the
clause is kept as its key list. -/
structure Rule where
  requiresClause : Option (List String)
  consumes : Option (List (String × Int))
  produces : Option (List (String × Int))
  time : Int
deriving DecidableEq, Repr

/-- The Recipe namedtuple: name, the rule its compiled check and effect
closures captured, and the cost taken from the Time field. -/
structure Recipe where
  name : String
  rule : Rule
  cost : Int
deriving DecidableEq, Repr

/-- The Consumes loop of make_checker: returns false as soon as
`state[item] - amount < 0`, raises (none) on a missing item. -/
def consumesOk (state : State) : List (String × Int) → Option Bool
  | [] => some true
  | (item, amt) :: rest =>
    match dictGet state item with
    | none => none
    | some q => if q - amt < 0 then some false else consumesOk state rest

/-- The Requires loop of make_checker: `if not state[requiredItem]` is the
Python truthiness test, false exactly on quantity zero. -/
def requiresOk (state : State) : List String → Option Bool
  | [] => some true
  | item :: rest =>
    match dictGet state item with
    | none => none
    | some q => if q = 0 then some false else requiresOk state rest

/-- The check closure built by make_checker: the Consumes loop runs first,
then the Requires loop; an absent clause imposes nothing. -/
def check (rule : Rule) (state : State) : Option Bool :=
  match (match rule.consumes with
         | some cs => consumesOk state cs
         | none => some true) with
  | none => none
  | some false => some false
  | some true =>
    match rule.requiresClause with
    | some rs => requiresOk state rs
    | none => some true

/-- The Produces loop of make_effector: `next_state[p] = state[p] + amount`.
Every read is from the original state, every write goes to the copy. -/
def applyProduces (state : State) : List (String × Int) → State → Option State
  | [], acc => some acc
  | (item, amt) :: rest, acc =>
    match dictGet state item with
    | none => none
    | some q => applyProduces state rest (dictSet acc item (q + amt))

/-- The Consumes loop of make_effector: `next_state[c] = state[c] - amount`,
again reading from the original state, so it overwrites whatever the
Produces loop wrote for the same item. -/
def applyConsumes (state : State) : List (String × Int) → State → Option State
  | [], acc => some acc
  | (item, amt) :: rest, acc =>
    match dictGet state item with
    | none => none
    | some q => applyConsumes state rest (dictSet acc item (q - amt))

/-- The effect closure built by make_effector: copy the state, run the
Produces loop, then the Consumes loop. -/
def effect (rule : Rule) (state : State) : Option State :=
  match (match rule.produces with
         | some ps => applyProduces state ps state
         | none => some state) with
  | none => none
  | some s1 =>
    match rule.consumes with
    | some cs => applyConsumes state cs s1
    | none => some s1

/-- The is_goal closure built by make_goal_checker: false as soon as some
goal item sits below its minimum, true when the loop completes. -/
def is_goal (goal : List (String × Int)) (state : State) : Option Bool :=
  match goal with
  | [] => some true
  | (item, minQ) :: rest =>
    match dictGet state item with
    | none => none
    | some q => if q < minQ then some false else is_goal rest state

/-- A Python number as the search uses it: an integer cost or the float
infinity returned by the heuristic. -/
inductive PyNum where
  | fin : Int → PyNum
  | inf : PyNum
deriving DecidableEq, Repr

/-- `new_cost + heuristic(adj_state)`: an integer plus a PyNum. -/
def numAdd (c : Int) : PyNum → PyNum
  | .fin h => .fin (c + h)
  | .inf => .inf

/-- Order on PyNum: finite numbers by Int order, infinity above all. -/
def numLt : PyNum → PyNum → Bool
  | .fin a, .fin b => decide (a < b)
  | .fin _, .inf => true
  | .inf, _ => false

/-- The tool list of the heuristic. -/
def tools : List String :=
  ["bench", "wooden_pickaxe", "wooden_axe", "stone_axe", "stone_pickaxe",
   "iron_pickaxe", "iron_axe", "furnace"]

/-- The body of the for loop of the heuristic. The loop body ends in an
unconditional `return 0`, so only the first tool of the list is ever
inspected; an empty list falls through to the final `return 0`. -/
def heuristicLoop (state : State) : List String → Option PyNum
  | [] => some (.fin 0)
  | tool :: _ =>
    match dictGet state tool with
    | none => none
    | some q => if q > 1 then some .inf else some (.fin 0)

/-- The heuristic of the source: the loop over the tool list. -/
def heuristic (state : State) : Option PyNum :=
  heuristicLoop state tools

/-- The graph generator: for each recipe in declaration order, if its check
passes, yield (name, effect, cost). A raise inside check or effect (none)
poisons the enumeration, as the exception would abort the caller. -/
def graph (all_recipes : List Recipe) (state : State) :
    Option (List (String × State × Int)) :=
  match all_recipes with
  | [] => some []
  | r :: rest =>
    match check r.rule state with
    | none => none
    | some false => graph rest state
    | some true =>
      match effect r.rule state with
      | none => none
      | some s2 =>
        match graph rest state with
        | none => none
        | some tail => some ((r.name, s2, r.cost) :: tail)

/-- How a run of the search can abort instead of returning a value. Each
constructor stands for one raise site of the source:
  - keyError: a bookkeeping lookup (cost_so_far, came_from, actions) misses;
  - indexError: heappop on an empty frontier;
  - externFail: an exception raised inside a caller supplied function
    (is_goal, graph or heuristic);
  - loopFuel: the path reconstruction while loop ran past the size of the
    came_from table, which in the source is an infinite loop (only possible
    when the predecessor links form a cycle). -/
inductive PyError where
  | keyError : PyError
  | indexError : PyError
  | externFail : PyError
  | loopFuel : PyError
deriving DecidableEq, Repr

/-- The returned plan: (State, action that produced it) pairs, the start
carrying none. -/
abbrev Path := List (State × Option String)

/-- Lexicographic order on states as Python compares the item tuples:
pairwise on (name, quantity), a strict prefix being smaller. -/
def stateLtB : State → State → Bool
  | [], [] => false
  | [], _ :: _ => true
  | _ :: _, [] => false
  | (k1, v1) :: r1, (k2, v2) :: r2 =>
    if k1 < k2 then true
    else if k2 < k1 then false
    else if v1 < v2 then true
    else if v2 < v1 then false
    else stateLtB r1 r2

/-- The tuple order heapq compares frontier entries by: priority first,
then the state. -/
def entryLe (a b : PyNum × State) : Bool :=
  numLt a.1 b.1 || (a.1 = b.1 && (stateLtB a.2 b.2 || a.2 = b.2))

/-- heappush, modelled on a queue kept sorted: insert before the first
entry the new one does not exceed. heappop is then taking the head, which
returns the same minimal value heapq would. -/
def qinsert (e : PyNum × State) : List (PyNum × State) → List (PyNum × State)
  | [] => [e]
  | f :: rest => if entryLe e f then e :: f :: rest else f :: qinsert e rest

/-- The bookkeeping one search invocation owns: the frontier and the
cost_so_far, came_from and actions dictionaries. -/
structure SearchData where
  queue : List (PyNum × State)
  cost_so_far : List (State × Int)
  came_from : List (State × Option State)
  actions : List (State × Option String)
deriving DecidableEq, Repr

/-- The inner for loop of the search over the neighbors of the popped
state: `new_cost = cost_so_far[current_state] + adj_cost` is recomputed on
every iteration; on an improvement all four structures are updated (the
source interleaves the writes with the heuristic call, but an exception
aborts the whole search, so the interleaving is not observable). -/
def relax (heuristic : State → Option PyNum) (current : State) :
    List (String × State × Int) → SearchData → Except PyError SearchData
  | [], st => .ok st
  | (adj_action, adj_state, adj_cost) :: rest, st =>
    match dictGet st.cost_so_far current with
    | none => .error .keyError
    | some ccur =>
      let new_cost := ccur + adj_cost
      let improve : Bool :=
        match dictGet st.cost_so_far adj_state with
        | none => true
        | some old => decide (new_cost < old)
      if improve then
        match heuristic adj_state with
        | none => .error .externFail
        | some hv =>
          relax heuristic current rest
            { queue := qinsert (numAdd new_cost hv, adj_state) st.queue,
              cost_so_far := dictSet st.cost_so_far adj_state new_cost,
              came_from := dictSet st.came_from adj_state (some current),
              actions := dictSet st.actions adj_state (some adj_action) }
      else relax heuristic current rest st

/-- The reconstruction while loop: follow actions / came_from links until
the predecessor is None, appending each link. Fuel bounds the walk; the
source loop would run forever on a predecessor cycle, which loopFuel
stands for. -/
def walk (came_from : List (State × Option State))
    (actions : List (State × Option String)) :
    Nat → Option State → Path → Except PyError Path
  | _, none, path => .ok path
  | 0, some _, _ => .error .loopFuel
  | fuel + 1, some s, path =>
    match dictGet actions s with
    | none => .error .keyError
    | some a =>
      match dictGet came_from s with
      | none => .error .keyError
      | some prev => walk came_from actions fuel prev (path ++ [(s, a)])

/-- The goal branch of the search: build the first link, walk the
predecessor chain (one more step of fuel than the table has entries
suffices for every terminating source run), read cost_so_far for the
summary print, and return the reversed path. -/
def reconstruct (st : SearchData) (current : State) : Except PyError Path :=
  match dictGet st.actions current with
  | none => .error .keyError
  | some a =>
    match dictGet st.came_from current with
    | none => .error .keyError
    | some prev =>
      match walk st.came_from st.actions (st.came_from.length + 1) prev
          [(current, a)] with
      | .error e => .error e
      | .ok path =>
        match dictGet st.cost_so_far current with
        | none => .error .keyError
        | some _ => .ok path.reverse

/-- The main search loop. The wall clock cutoff is modelled as fuel: each
permitted iteration of `while time() - start_time < limit` spends one unit,
and exhausted fuel is the limit elapsing, upon which the source returns
None. An empty frontier makes heappop raise IndexError. -/
def searchLoop (graph : State → Option (List (String × State × Int)))
    (is_goal : State → Option Bool) (heuristic : State → Option PyNum) :
    Nat → SearchData → Except PyError (Option Path)
  | 0, _ => .ok none
  | fuel + 1, st =>
    match st.queue with
    | [] => .error .indexError
    | (_, current) :: restQ =>
      match is_goal current with
      | none => .error .externFail
      | some true =>
        match reconstruct st current with
        | .error e => .error e
        | .ok path => .ok (some path)
      | some false =>
        match graph current with
        | none => .error .externFail
        | some neighbors =>
          match relax heuristic current neighbors { st with queue := restQ } with
          | .error e => .error e
          | .ok st2 => searchLoop graph is_goal heuristic fuel st2

/-- The bookkeeping as search initializes it: the start state at priority
0, cost 0, no predecessor, no action. -/
def searchInit (state : State) : SearchData :=
  { queue := [(.fin 0, state)],
    cost_so_far := [(state, 0)],
    came_from := [(state, none)],
    actions := [(state, none)] }

/-- The search function: parameters in source order (graph, state, is_goal,
limit, heuristic), the limit being the iteration budget. -/
def search (graph : State → Option (List (String × State × Int)))
    (state : State) (is_goal : State → Option Bool) (limit : Nat)
    (heuristic : State → Option PyNum) : Except PyError (Option Path) :=
  searchLoop graph is_goal heuristic limit (searchInit state)

/-! Statement side definitions: predicates the theorems are phrased with,
and concrete data for witnesses and counterexamples. -/

/-- Modelled from the spec, for the refinement comparison of the Transition
Graph: one triple per recipe whose precondition holds, in declaration
order. -/
def graphSpecEnum (all_recipes : List Recipe) (state : State) :
    List (String × State × Int) :=
  all_recipes.filterMap fun r =>
    match check r.rule state, effect r.rule state with
    | some true, some s2 => some (r.name, s2, r.cost)
    | _, _ => none

/-- The chronological link condition of a returned path: each element names
a recipe whose check passes in the preceding state and whose effect
produces the element's state. -/
def pathSteps (all_recipes : List Recipe) : State → Path → Prop
  | _, [] => True
  | prev, (s, a) :: rest =>
    (∃ r, r ∈ all_recipes ∧ a = some r.name ∧ check r.rule prev = some true ∧
      effect r.rule prev = some s) ∧
    pathSteps all_recipes s rest

/-- Link condition against an abstract transition graph, tracking the state
the chain ends in. -/
def stepsTo (gr : State → Option (List (String × State × Int))) :
    State → Path → State → Prop
  | prev, [], last => prev = last
  | prev, (s, a) :: rest, last =>
    (∃ a2 l c, a = some a2 ∧ gr prev = some l ∧ (a2, s, c) ∈ l) ∧
    stepsTo gr s rest last

/-- The backward chain the reconstruction walk appends: starting from a
pending predecessor, each element records its actions and came_from
entries, ending where the predecessor is none. -/
inductive ChainFrom (came_from : List (State × Option State))
    (actions : List (State × Option String)) : Option State → Path → Prop where
  | nil : ChainFrom came_from actions none []
  | cons {s : State} {a : Option String} {prev : Option State} {ext : Path} :
      dictGet actions s = some a → dictGet came_from s = some prev →
      ChainFrom came_from actions prev ext →
      ChainFrom came_from actions (some s) ((s, a) :: ext)

/-- Invariant of the predecessor and action tables: every recorded link
comes from an expansion of a popped, non goal state, and the only entry
with predecessor none is the untouched start entry. -/
def LinkInv (gr : State → Option (List (String × State × Int)))
    (isg : State → Option Bool) (start : State)
    (came_from : List (State × Option State))
    (actions : List (State × Option String)) : Prop :=
  (∀ s t, dictGet came_from s = some (some t) →
    isg t = some false ∧
    ∃ a l c, dictGet actions s = some (some a) ∧ gr t = some l ∧ (a, s, c) ∈ l) ∧
  (∀ s, dictGet came_from s = some none →
    s = start ∧ dictGet actions s = some none)

/-- Invariant of the bookkeeping keys: every frontier state is a key of all
three tables, every came_from key is a key of the cost and action tables,
and every recorded predecessor is again a key of came_from and actions. -/
def KeysInv (st : SearchData) : Prop :=
  (∀ e ∈ st.queue, (dictGet st.cost_so_far e.2).isSome ∧
    (dictGet st.came_from e.2).isSome ∧ (dictGet st.actions e.2).isSome) ∧
  (∀ s v, dictGet st.came_from s = some v →
    (dictGet st.cost_so_far s).isSome ∧ (dictGet st.actions s).isSome ∧
    ∀ t, v = some t →
      (dictGet st.came_from t).isSome ∧ (dictGet st.actions t).isSome)

/-- True unless the run aborted with a bookkeeping KeyError. -/
def notKeyMiss : Except PyError (Option Path) → Bool
  | .error .keyError => false
  | _ => true

/-- Witness data: the scenario of the spec, one recipe crafting a plank
from wood. -/
def plankRule : Rule :=
  { requiresClause := none, consumes := some [("w", 1)],
    produces := some [("p", 1)], time := 1 }

/-- The plank recipe wrapping plankRule. -/
def plankRecipe : Recipe := { name := "craft plank", rule := plankRule, cost := 1 }

/-- Witness start state: one wood, no plank. -/
def startWP : State := [("w", 1), ("p", 0)]

/-- Witness goal: one plank. -/
def plankGoal : List (String × Int) := [("p", 1)]

/-- The state the plank recipe produces from startWP. -/
def donePS : State := [("w", 0), ("p", 1)]

/-- The path the witness search run returns. -/
def plankPath : Path := [(startWP, none), (donePS, some "craft plank")]

/-- Failing input for the heuristic claim: every tool present, bench at
one, wooden_pickaxe at two. -/
def toolSurplusState : State :=
  [("bench", 1), ("wooden_pickaxe", 2), ("wooden_axe", 0), ("stone_axe", 0),
   ("stone_pickaxe", 0), ("iron_pickaxe", 0), ("iron_axe", 0), ("furnace", 0)]

/-- A rule producing and consuming the same item, for the effect
counterexample. -/
def overlapRule : Rule :=
  { requiresClause := none, consumes := some [("x", 1)],
    produces := some [("x", 2)], time := 1 }

/-- A rule with both a requirement and a consumption, for the checker
witness. -/
def checkerRule : Rule :=
  { requiresClause := some ["t"], consumes := some [("w", 2)],
    produces := none, time := 0 }

/-- State for the checker witness: not enough wood, tool present. -/
def checkerState : State := [("w", 1), ("t", 1)]

/-! Dictionary lemmas. -/

lemma dictGet_dictSet {κ α : Type} [DecidableEq κ]
    (m : List (κ × α)) (k : κ) (v : α) (key : κ) :
    dictGet (dictSet m k v) key = if k = key then some v else dictGet m key := by
  induction m with
  | nil =>
    by_cases h : k = key <;> simp [dictSet, dictGet, h]
  | cons p rest ih =>
    obtain ⟨a, w⟩ := p
    by_cases hak : a = k
    · subst hak
      by_cases h : a = key <;> simp [dictSet, dictGet, h]
    · by_cases h : a = key
      · subst h
        have hk : ¬ k = a := fun e => hak e.symm
        simp [dictSet, dictGet, hak, hk]
      · simp [dictSet, dictGet, hak, h, ih]

lemma dictGet_isSome_dictSet {κ α : Type} [DecidableEq κ]
    (m : List (κ × α)) (k : κ) (v : α) (key : κ)
    (h : (dictGet m key).isSome) : (dictGet (dictSet m k v) key).isSome := by
  rw [dictGet_dictSet]
  by_cases e : k = key <;> simp [e, h]

lemma dictGet_mem {κ α : Type} [DecidableEq κ] :
    ∀ (m : List (κ × α)) (k : κ) (v : α), dictGet m k = some v → (k, v) ∈ m := by
  intro m
  induction m with
  | nil => intro k v h; simp [dictGet] at h
  | cons p rest ih =>
    intro k v h
    obtain ⟨a, w⟩ := p
    by_cases e : a = k
    · subst e
      simp [dictGet] at h
      simp [h]
    · simp [dictGet, e] at h
      exact List.mem_cons_of_mem _ (ih k v h)

lemma mem_dictSet {κ α : Type} [DecidableEq κ] :
    ∀ (m : List (κ × α)) (k : κ) (v : α) (p : κ × α),
      p ∈ dictSet m k v → p = (k, v) ∨ p ∈ m := by
  intro m
  induction m with
  | nil => intro k v p h; simp [dictSet] at h; simp [h]
  | cons q rest ih =>
    intro k v p h
    obtain ⟨a, w⟩ := q
    by_cases e : a = k
    · simp [dictSet, e] at h
      rcases h with h | h
      · left; simp [h]
      · right; simp [h]
    · simp [dictSet, e] at h
      rcases h with h | h
      · right; simp [h]
      · rcases ih k v p h with h2 | h2
        · left; exact h2
        · right; exact List.mem_cons_of_mem _ h2

lemma dictGet_eq_none {κ α : Type} [DecidableEq κ] :
    ∀ (m : List (κ × α)) (k : κ), k ∉ m.map Prod.fst → dictGet m k = none := by
  intro m
  induction m with
  | nil => intro k _; rfl
  | cons p rest ih =>
    intro k h
    obtain ⟨a, w⟩ := p
    have h1 : ¬ a = k := by
      intro e
      exact h (by simp [e])
    have h2 : k ∉ rest.map Prod.fst := by
      intro hm
      exact h (by simp [hm])
    simp [dictGet, h1, ih k h2]

lemma mem_qinsert (e : PyNum × State) :
    ∀ (q : List (PyNum × State)) (x : PyNum × State),
      x ∈ qinsert e q → x = e ∨ x ∈ q := by
  intro q
  induction q with
  | nil => intro x h; simp [qinsert] at h; simp [h]
  | cons f rest ih =>
    intro x h
    by_cases c : entryLe e f
    · simp [qinsert, c] at h
      rcases h with h | h | h
      · left; exact h
      · right; simp [h]
      · right; exact List.mem_cons_of_mem _ h
    · simp [qinsert, c] at h
      rcases h with h | h
      · right; simp [h]
      · rcases ih x h with h2 | h2
        · left; exact h2
        · right; exact List.mem_cons_of_mem _ h2

/-! The effect compiler. -/

lemma applyProduces_spec (state : State) :
    ∀ ps : List (String × Int),
      (∀ p ∈ ps, (dictGet state p.1).isSome) → (ps.map Prod.fst).Nodup →
      ∀ acc, ∃ acc2, applyProduces state ps acc = some acc2 ∧
        ∀ item, dictGet acc2 item =
          match dictGet ps item with
          | some amt => (dictGet state item).map (· + amt)
          | none => dictGet acc item := by
  intro ps
  induction ps with
  | nil =>
    intro _ _ acc
    exact ⟨acc, rfl, fun item => by simp [dictGet]⟩
  | cons p rest ih =>
    intro hk hnd acc
    obtain ⟨j, amt⟩ := p
    obtain ⟨q, hq⟩ := Option.isSome_iff_exists.mp (hk (j, amt) (List.mem_cons_self _ _))
    have hk2 : ∀ p ∈ rest, (dictGet state p.1).isSome :=
      fun p hp => hk p (List.mem_cons_of_mem _ hp)
    have hnd1 := hnd
    rw [List.map_cons] at hnd1
    have hcons := List.nodup_cons.mp hnd1
    have hnotin : j ∉ rest.map Prod.fst := hcons.1
    have hnd2 : (rest.map Prod.fst).Nodup := hcons.2
    obtain ⟨acc2, heq, hval⟩ := ih hk2 hnd2 (dictSet acc j (q + amt))
    refine ⟨acc2, ?_, ?_⟩
    · simpa [applyProduces, hq] using heq
    · intro item
      by_cases e : j = item
      · subst e
        have h1 : dictGet rest j = none := dictGet_eq_none rest j hnotin
        have := hval j
        rw [h1] at this
        simp only [dictGet_dictSet] at this
        simp [dictGet, this, hq]
      · have := hval item
        simp only [dictGet_dictSet, e, if_false] at this
        simp [dictGet, e, this]

lemma applyConsumes_spec (state : State) :
    ∀ cs : List (String × Int),
      (∀ p ∈ cs, (dictGet state p.1).isSome) → (cs.map Prod.fst).Nodup →
      ∀ acc, ∃ acc2, applyConsumes state cs acc = some acc2 ∧
        ∀ item, dictGet acc2 item =
          match dictGet cs item with
          | some amt => (dictGet state item).map (· - amt)
          | none => dictGet acc item := by
  intro cs
  induction cs with
  | nil =>
    intro _ _ acc
    exact ⟨acc, rfl, fun item => by simp [dictGet]⟩
  | cons p rest ih =>
    intro hk hnd acc
    obtain ⟨j, amt⟩ := p
    obtain ⟨q, hq⟩ := Option.isSome_iff_exists.mp (hk (j, amt) (List.mem_cons_self _ _))
    have hk2 : ∀ p ∈ rest, (dictGet state p.1).isSome :=
      fun p hp => hk p (List.mem_cons_of_mem _ hp)
    have hnd1 := hnd
    rw [List.map_cons] at hnd1
    have hcons := List.nodup_cons.mp hnd1
    have hnotin : j ∉ rest.map Prod.fst := hcons.1
    have hnd2 : (rest.map Prod.fst).Nodup := hcons.2
    obtain ⟨acc2, heq, hval⟩ := ih hk2 hnd2 (dictSet acc j (q - amt))
    refine ⟨acc2, ?_, ?_⟩
    · simpa [applyConsumes, hq] using heq
    · intro item
      by_cases e : j = item
      · subst e
        have h1 : dictGet rest j = none := dictGet_eq_none rest j hnotin
        have := hval j
        rw [h1] at this
        simp only [dictGet_dictSet] at this
        simp [dictGet, this, hq]
      · have := hval item
        simp only [dictGet_dictSet, e, if_false] at this
        simp [dictGet, e, this]

lemma effect_getD (rule : Rule) (state : State) :
    effect rule state =
      match applyProduces state (rule.produces.getD []) state with
      | none => none
      | some s1 => applyConsumes state (rule.consumes.getD []) s1 := by
  cases hp : rule.produces <;> cases hc : rule.consumes <;>
    simp [effect, hp, hc, applyProduces, applyConsumes]

/-- C2, amended: the effect returns the input state with each item that is
only produced increased by the produced amount and each consumed item set
to the input quantity minus the consumed amount; because both loops read
from the original state and the Consumes loop runs second, an item in both
clauses ends at input minus consumed, the produced amount being
overwritten. All other items keep their input quantity. -/
theorem craft_C2_amended (rule : Rule) (state : State)
    (hreq : ∀ i ∈ rule.requiresClause.getD [], (dictGet state i).isSome)
    (hp : ∀ p ∈ rule.produces.getD [], (dictGet state p.1).isSome)
    (hc : ∀ p ∈ rule.consumes.getD [], (dictGet state p.1).isSome)
    (hnp : ((rule.produces.getD []).map Prod.fst).Nodup)
    (hnc : ((rule.consumes.getD []).map Prod.fst).Nodup) :
    ∃ s2, effect rule state = some s2 ∧
      ∀ item, dictGet s2 item =
        match dictGet (rule.consumes.getD []) item with
        | some c => (dictGet state item).map (· - c)
        | none =>
          match dictGet (rule.produces.getD []) item with
          | some p => (dictGet state item).map (· + p)
          | none => dictGet state item := by
  obtain ⟨s1, h1, hv1⟩ := applyProduces_spec state (rule.produces.getD []) hp hnp state
  obtain ⟨s2, h2, hv2⟩ := applyConsumes_spec state (rule.consumes.getD []) hc hnc s1
  refine ⟨s2, ?_, ?_⟩
  · rw [effect_getD, h1]
    exact h2
  · intro item
    have := hv2 item
    cases hcc : dictGet (rule.consumes.getD []) item with
    | some c => rw [hcc] at this; simp [this]
    | none =>
      rw [hcc] at this
      rw [this, hv1 item]

/-- C2, counterexample: a rule producing 2 and consuming 1 of item x, on a
state with 5 of x, yields 4 (input minus consumed), not the 6 the claim
(input plus produced minus consumed) demands. -/
theorem craft_C2_cex :
    effect overlapRule [("x", (5 : Int))] = some [("x", 4)] ∧
    (5 : Int) + 2 - 1 = 6 ∧ ¬ ((4 : Int) = 6) := by
  refine ⟨by rfl, by norm_num, by norm_num⟩

/-- C2, witness for the amended theorem at the plank rule. -/
theorem craft_C2_witness :
    ∃ s2, effect plankRule startWP = some s2 ∧
      ∀ item, dictGet s2 item =
        match dictGet (plankRule.consumes.getD []) item with
        | some c => (dictGet startWP item).map (· - c)
        | none =>
          match dictGet (plankRule.produces.getD []) item with
          | some p => (dictGet startWP item).map (· + p)
          | none => dictGet startWP item :=
  craft_C2_amended plankRule startWP (by decide) (by decide) (by decide)
    (by decide) (by decide)

/-! The precondition compiler and the goal predicate. -/

lemma consumesOk_spec (state : State) :
    ∀ cs : List (String × Int), (∀ p ∈ cs, (dictGet state p.1).isSome) →
      ∃ b, consumesOk state cs = some b ∧
        (b = true ↔ ∀ p ∈ cs, ∀ q, dictGet state p.1 = some q → p.2 ≤ q) := by
  intro cs
  induction cs with
  | nil => intro _; exact ⟨true, rfl, by simp⟩
  | cons p rest ih =>
    intro hk
    obtain ⟨i, a⟩ := p
    obtain ⟨q, hq0⟩ := Option.isSome_iff_exists.mp (hk (i, a) (List.mem_cons_self _ _))
    have hq : dictGet state i = some q := hq0
    by_cases hlt : q - a < 0
    · refine ⟨false, by simp [consumesOk, hq, hlt], ?_⟩
      constructor
      · intro hff
        exact absurd hff (by decide)
      · intro hall
        exfalso
        have := hall (i, a) (List.mem_cons_self _ _) q hq
        simp at this
        omega
    · obtain ⟨b, hb, hiff⟩ := ih (fun p hp => hk p (List.mem_cons_of_mem _ hp))
      refine ⟨b, by simp [consumesOk, hq, hlt, hb], ?_⟩
      rw [hiff]
      constructor
      · intro hall p hp q2 hq2
        rcases List.mem_cons.mp hp with he | hm
        · subst he
          have hq2' : dictGet state i = some q2 := hq2
          rw [hq] at hq2'
          cases hq2'
          simp
          omega
        · exact hall p hm q2 hq2
      · intro hall p hm q2 hq2
        exact hall p (List.mem_cons_of_mem _ hm) q2 hq2

lemma requiresOk_spec (state : State) :
    ∀ rs : List String, (∀ i ∈ rs, (dictGet state i).isSome) →
      ∃ b, requiresOk state rs = some b ∧
        (b = true ↔ ∀ i ∈ rs, ∀ q, dictGet state i = some q → q ≠ 0) := by
  intro rs
  induction rs with
  | nil => intro _; exact ⟨true, rfl, by simp⟩
  | cons i rest ih =>
    intro hk
    obtain ⟨q, hq⟩ := Option.isSome_iff_exists.mp (hk i (List.mem_cons_self _ _))
    by_cases hz : q = 0
    · refine ⟨false, by simp [requiresOk, hq, hz], ?_⟩
      constructor
      · intro hff
        exact absurd hff (by decide)
      · intro hall
        exact absurd hz (hall i (List.mem_cons_self _ _) q hq)
    · obtain ⟨b, hb, hiff⟩ := ih (fun j hj => hk j (List.mem_cons_of_mem _ hj))
      refine ⟨b, by simp [requiresOk, hq, hz, hb], ?_⟩
      rw [hiff]
      constructor
      · intro hall j hj q2 hq2
        rcases List.mem_cons.mp hj with he | hm
        · subst he
          rw [hq] at hq2
          cases hq2
          exact hz
        · exact hall j hm q2 hq2
      · intro hall j hm q2 hq2
        exact hall j (List.mem_cons_of_mem _ hm) q2 hq2

lemma check_getD (rule : Rule) (state : State) :
    check rule state =
      match consumesOk state (rule.consumes.getD []) with
      | none => none
      | some false => some false
      | some true => requiresOk state (rule.requiresClause.getD []) := by
  cases hc : rule.consumes <;> cases hr : rule.requiresClause <;>
    simp [check, hc, hr, consumesOk, requiresOk]

/-- C4: the compiled precondition returns false exactly when some required
item has zero quantity or some consumed item has less than the consumed
amount; absent clauses impose nothing. -/
theorem craft_C4 (rule : Rule) (state : State)
    (hreq : ∀ i ∈ rule.requiresClause.getD [], (dictGet state i).isSome)
    (hcon : ∀ p ∈ rule.consumes.getD [], (dictGet state p.1).isSome) :
    ∃ b, check rule state = some b ∧
      (b = false ↔
        ((∃ i ∈ rule.requiresClause.getD [], dictGet state i = some 0) ∨
         (∃ p ∈ rule.consumes.getD [], ∃ q, dictGet state p.1 = some q ∧ q < p.2))) := by
  obtain ⟨bc, hbc, hiffc⟩ := consumesOk_spec state (rule.consumes.getD []) hcon
  obtain ⟨br, hbr, hiffr⟩ := requiresOk_spec state (rule.requiresClause.getD []) hreq
  cases bc with
  | false =>
    refine ⟨false, by rw [check_getD, hbc], ?_⟩
    constructor
    · intro _
      right
      have hnot : ¬ ∀ p ∈ rule.consumes.getD [], ∀ q, dictGet state p.1 = some q → p.2 ≤ q := by
        intro hgood
        exact absurd (hiffc.mpr hgood) (by decide)
      push_neg at hnot
      obtain ⟨p, hp, q, hq, hlt⟩ := hnot
      exact ⟨p, hp, q, hq, hlt⟩
    · intro _
      rfl
  | true =>
    have hgoodc : ∀ p ∈ rule.consumes.getD [], ∀ q, dictGet state p.1 = some q → p.2 ≤ q :=
      hiffc.mp rfl
    refine ⟨br, by rw [check_getD, hbc, hbr], ?_⟩
    constructor
    · intro hbf
      left
      have hnot : ¬ ∀ i ∈ rule.requiresClause.getD [], ∀ q, dictGet state i = some q → q ≠ 0 := by
        intro hgood
        rw [hbf] at hiffr
        exact absurd (hiffr.mpr hgood) (by decide)
      push_neg at hnot
      obtain ⟨i, hi, q, hq, hz⟩ := hnot
      rw [hz] at hq
      exact ⟨i, hi, hq⟩
    · intro hbad
      rcases hbad with ⟨i, hi, hz⟩ | ⟨p, hp, q, hq, hlt⟩
      · cases hb2 : br with
        | false => rfl
        | true =>
          have := hiffr.mp hb2 i hi 0 hz
          exact absurd rfl this
      · have := hgoodc p hp q hq
        omega

/-- C4, witness: a rule consuming two wood on a state with one. -/
theorem craft_C4_witness :
    ∃ b, check checkerRule checkerState = some b ∧
      (b = false ↔
        ((∃ i ∈ checkerRule.requiresClause.getD [], dictGet checkerState i = some 0) ∨
         (∃ p ∈ checkerRule.consumes.getD [], ∃ q,
            dictGet checkerState p.1 = some q ∧ q < p.2))) :=
  craft_C4 checkerRule checkerState (by decide) (by decide)

/-- C5: the compiled goal predicate holds exactly when every goal item
meets its minimum, and depends only on the quantities of goal items. -/
theorem craft_C5 (goal : List (String × Int)) (state : State)
    (h : ∀ p ∈ goal, (dictGet state p.1).isSome) :
    (is_goal goal state = some true ↔
      ∀ p ∈ goal, ∃ q, dictGet state p.1 = some q ∧ p.2 ≤ q) ∧
    (∀ state2 : State, (∀ p ∈ goal, dictGet state2 p.1 = dictGet state p.1) →
      is_goal goal state2 = is_goal goal state) := by
  constructor
  · induction goal with
    | nil => simp [is_goal]
    | cons p rest ih =>
      obtain ⟨i, m⟩ := p
      obtain ⟨q, hq0⟩ := Option.isSome_iff_exists.mp (h (i, m) (List.mem_cons_self _ _))
      have hq : dictGet state i = some q := hq0
      have ih2 := ih (fun p hp => h p (List.mem_cons_of_mem _ hp))
      by_cases hlt : q < m
      · simp only [is_goal, hq, hlt, if_true]
        constructor
        · intro hfalse
          cases hfalse
        · intro hall
          obtain ⟨q2, hq2, hle⟩ := hall (i, m) (List.mem_cons_self _ _)
          have hq2' : dictGet state i = some q2 := hq2
          rw [hq] at hq2'
          cases hq2'
          simp at hle
          omega
      · simp only [is_goal, hq, hlt, if_false]
        rw [ih2]
        constructor
        · intro hall p hp
          rcases List.mem_cons.mp hp with he | hm
          · subst he
            refine ⟨q, hq, ?_⟩
            simp
            omega
          · exact hall p hm
        · intro hall p hm
          exact hall p (List.mem_cons_of_mem _ hm)
  · induction goal with
    | nil => intro state2 _; rfl
    | cons p rest ih =>
      intro state2 hagree
      obtain ⟨i, m⟩ := p
      have hhead : dictGet state2 i = dictGet state i :=
        hagree (i, m) (List.mem_cons_self _ _)
      have ih2 := ih (fun p hp => h p (List.mem_cons_of_mem _ hp)) state2
        (fun p hp => hagree p (List.mem_cons_of_mem _ hp))
      simp only [is_goal, hhead, ih2]

/-- C5, witness at the plank goal and start state. -/
theorem craft_C5_witness :
    (is_goal plankGoal startWP = some true ↔
      ∀ p ∈ plankGoal, ∃ q, dictGet startWP p.1 = some q ∧ p.2 ≤ q) ∧
    (∀ state2 : State, (∀ p ∈ plankGoal, dictGet state2 p.1 = dictGet startWP p.1) →
      is_goal plankGoal state2 = is_goal plankGoal startWP) :=
  craft_C5 plankGoal startWP (by decide)

/-- C3: evaluating the heuristic of the source at a state whose bench count
is one but whose wooden_pickaxe count is two returns 0, not the infinite
cost the claim demands; the loop body returns unconditionally after
inspecting only the first tool. -/
theorem craft_C3_eval :
    heuristic toolSurplusState = some (.fin 0) ∧
    dictGet toolSurplusState "wooden_pickaxe" = some 2 ∧
    "wooden_pickaxe" ∈ tools ∧
    ¬ (some (PyNum.fin 0) = some PyNum.inf) := by
  refine ⟨by rfl, by rfl, by decide, by decide⟩

/-! Non negative inventories. -/

lemma consumesOk_true (state : State) :
    ∀ cs : List (String × Int), consumesOk state cs = some true →
      ∀ p ∈ cs, ∃ q, dictGet state p.1 = some q ∧ 0 ≤ q - p.2 := by
  intro cs
  induction cs with
  | nil => intro _ p hp; cases hp
  | cons p rest ih =>
    intro h p2 hp2
    obtain ⟨i, a⟩ := p
    cases hg : dictGet state i with
    | none => simp only [consumesOk, hg] at h; cases h
    | some q =>
      simp only [consumesOk, hg] at h
      by_cases hlt : q - a < 0
      · rw [if_pos hlt] at h
        cases h
      · rw [if_neg hlt] at h
        rcases List.mem_cons.mp hp2 with he | hm
        · subst he
          exact ⟨q, hg, by omega⟩
        · exact ih h p2 hm

lemma check_true_consumes (rule : Rule) (state : State)
    (h : check rule state = some true) :
    ∀ p ∈ rule.consumes.getD [], ∃ q, dictGet state p.1 = some q ∧ 0 ≤ q - p.2 := by
  rw [check_getD] at h
  cases hc : consumesOk state (rule.consumes.getD []) with
  | none => rw [hc] at h; cases h
  | some b =>
    cases b with
    | false => rw [hc] at h; cases h
    | true => exact consumesOk_true state _ hc

lemma nonneg_dictSet (m : State) (k : String) (v : Int)
    (hm : ∀ p ∈ m, 0 ≤ p.2) (hv : 0 ≤ v) : ∀ p ∈ dictSet m k v, 0 ≤ p.2 := by
  intro p hp
  rcases mem_dictSet m k v p hp with he | he
  · rw [he]; exact hv
  · exact hm p he

lemma applyProduces_nonneg (state : State) :
    ∀ ps : List (String × Int),
      (∀ p ∈ ps, ∃ q, dictGet state p.1 = some q ∧ 0 ≤ q + p.2) →
      ∀ acc, (∀ p ∈ acc, 0 ≤ p.2) →
      ∃ acc2, applyProduces state ps acc = some acc2 ∧ ∀ p ∈ acc2, 0 ≤ p.2 := by
  intro ps
  induction ps with
  | nil => intro _ acc hacc; exact ⟨acc, rfl, hacc⟩
  | cons p rest ih =>
    intro hps acc hacc
    obtain ⟨i, a⟩ := p
    obtain ⟨q, hq0, hqa⟩ := hps (i, a) (List.mem_cons_self _ _)
    have hq : dictGet state i = some q := hq0
    have hqa2 : (0:Int) ≤ q + a := hqa
    obtain ⟨acc2, heq, hn⟩ := ih (fun p hp => hps p (List.mem_cons_of_mem _ hp))
      (dictSet acc i (q + a)) (nonneg_dictSet acc i (q + a) hacc hqa2)
    exact ⟨acc2, by simp [applyProduces, hq, heq], hn⟩

lemma applyConsumes_nonneg (state : State) :
    ∀ cs : List (String × Int),
      (∀ p ∈ cs, ∃ q, dictGet state p.1 = some q ∧ 0 ≤ q - p.2) →
      ∀ acc, (∀ p ∈ acc, 0 ≤ p.2) →
      ∃ acc2, applyConsumes state cs acc = some acc2 ∧ ∀ p ∈ acc2, 0 ≤ p.2 := by
  intro cs
  induction cs with
  | nil => intro _ acc hacc; exact ⟨acc, rfl, hacc⟩
  | cons p rest ih =>
    intro hcs acc hacc
    obtain ⟨i, a⟩ := p
    obtain ⟨q, hq0, hqa⟩ := hcs (i, a) (List.mem_cons_self _ _)
    have hq : dictGet state i = some q := hq0
    have hqa2 : (0:Int) ≤ q - a := hqa
    obtain ⟨acc2, heq, hn⟩ := ih (fun p hp => hcs p (List.mem_cons_of_mem _ hp))
      (dictSet acc i (q - a)) (nonneg_dictSet acc i (q - a) hacc hqa2)
    exact ⟨acc2, by simp [applyConsumes, hq, heq], hn⟩

/-- C7: a rule with non negative amounts, applied through the compiled
effect to a non negative state that passed the compiled check, yields a
state with only non negative quantities. -/
theorem craft_C7 (rule : Rule) (state : State)
    (hs : ∀ p ∈ state, 0 ≤ p.2)
    (hpa : ∀ p ∈ rule.produces.getD [], 0 ≤ p.2)
    (hca : ∀ p ∈ rule.consumes.getD [], 0 ≤ p.2)
    (hpk : ∀ p ∈ rule.produces.getD [], (dictGet state p.1).isSome)
    (hchk : check rule state = some true) :
    ∃ s2, effect rule state = some s2 ∧ ∀ p ∈ s2, 0 ≤ p.2 := by
  have hprod : ∀ p ∈ rule.produces.getD [], ∃ q, dictGet state p.1 = some q ∧ 0 ≤ q + p.2 := by
    intro p hp
    obtain ⟨q, hq⟩ := Option.isSome_iff_exists.mp (hpk p hp)
    have hq0 : 0 ≤ q := hs (p.1, q) (dictGet_mem state p.1 q hq)
    have ha0 : 0 ≤ p.2 := hpa p hp
    exact ⟨q, hq, by omega⟩
  obtain ⟨s1, h1, hn1⟩ := applyProduces_nonneg state (rule.produces.getD []) hprod state hs
  obtain ⟨s2, h2, hn2⟩ := applyConsumes_nonneg state (rule.consumes.getD [])
    (check_true_consumes rule state hchk) s1 hn1
  refine ⟨s2, ?_, hn2⟩
  rw [effect_getD, h1]
  exact h2

/-- C7, witness at the plank rule and start state. -/
theorem craft_C7_witness :
    ∃ s2, effect plankRule startWP = some s2 ∧ ∀ p ∈ s2, 0 ≤ p.2 :=
  craft_C7 plankRule startWP (by decide) (by decide) (by decide) (by decide)
    (by decide)

/-! The transition graph. -/

lemma graph_mem :
    ∀ (all_recipes : List Recipe) (state : State) (l : List (String × State × Int)),
      graph all_recipes state = some l →
      ∀ a s2 c, (a, s2, c) ∈ l →
        ∃ r, r ∈ all_recipes ∧ a = r.name ∧ c = r.cost ∧
          check r.rule state = some true ∧ effect r.rule state = some s2 := by
  intro rs
  induction rs with
  | nil =>
    intro state l h a s2 c hm
    rw [graph] at h
    cases h
    cases hm
  | cons r rest ih =>
    intro state l h a s2 c hm
    rw [graph] at h
    cases hchk : check r.rule state with
    | none => rw [hchk] at h; cases h
    | some b =>
      cases b with
      | false =>
        rw [hchk] at h
        obtain ⟨r2, hr2, h1, h2, h3, h4⟩ := ih state l h a s2 c hm
        exact ⟨r2, List.mem_cons_of_mem _ hr2, h1, h2, h3, h4⟩
      | true =>
        rw [hchk] at h
        cases heff : effect r.rule state with
        | none => rw [heff] at h; cases h
        | some s3 =>
          rw [heff] at h
          cases htail : graph rest state with
          | none => rw [htail] at h; cases h
          | some tail =>
            rw [htail] at h
            cases h
            rcases List.mem_cons.mp hm with he | hmem
            · injection he with e1 erest
              injection erest with e2 e3
              refine ⟨r, List.mem_cons_self _ _, e1, e3, hchk, ?_⟩
              rw [e2]
              exact heff
            · obtain ⟨r2, hr2, h1, h2, h3, h4⟩ := ih state tail htail a s2 c hmem
              exact ⟨r2, List.mem_cons_of_mem _ hr2, h1, h2, h3, h4⟩

/-- C8: the transition graph of the source enumerates, in declaration
order, one (name, next state, cost) triple per recipe whose check passes,
and re enumeration on an equal state yields the same value; the embedding
is pure, so neither the input state nor any recipe is mutated. -/
theorem craft_C8 (all_recipes : List Recipe) (state : State)
    (h : ∀ r ∈ all_recipes, ∃ b, check r.rule state = some b ∧
      (b = true → (effect r.rule state).isSome)) :
    graph all_recipes state = some (graphSpecEnum all_recipes state) ∧
    ∀ state2 : State, state2 = state →
      graph all_recipes state2 = graph all_recipes state := by
  constructor
  · induction all_recipes with
    | nil => rfl
    | cons r rest ih =>
      obtain ⟨b, hb, he⟩ := h r (List.mem_cons_self _ _)
      have ih2 := ih (fun r2 hr2 => h r2 (List.mem_cons_of_mem _ hr2))
      cases b with
      | false =>
        rw [graph, hb]
        rw [ih2]
        simp only [graphSpecEnum, List.filterMap_cons, hb]
      | true =>
        obtain ⟨s2, hs2⟩ := Option.isSome_iff_exists.mp (he rfl)
        rw [graph, hb, hs2, ih2]
        simp only [graphSpecEnum, List.filterMap_cons, hb, hs2]
  · intro state2 he
    rw [he]

/-- C8, witness with the plank recipe list. -/
theorem craft_C8_witness :
    graph [plankRecipe] startWP = some (graphSpecEnum [plankRecipe] startWP) ∧
    ∀ state2 : State, state2 = startWP →
      graph [plankRecipe] state2 = graph [plankRecipe] startWP :=
  craft_C8 [plankRecipe] startWP (by decide)

/-! The search engine: outcomes and the immediate goal case. -/

/-- C1, counterexample: with no recipes, a goal asking for one x and a
start holding zero x, the frontier empties after the first iteration and
the second permitted iteration pops from an empty heap, so the run aborts
with IndexError while time remains instead of returning the failure
signal. -/
theorem craft_C1_cex :
    search (graph []) [("x", (0 : Int))] (is_goal [("x", 1)]) 2 heuristic =
      .error .indexError := by
  rfl

/-- C1, amended: when the time limit (the iteration budget) elapses the
search returns the failure signal none without raising, but a pop from an
empty frontier within the limit raises IndexError instead of producing the
failure signal. -/
theorem craft_C1_amended :
    (∀ (gr : State → Option (List (String × State × Int)))
       (isg : State → Option Bool) (h : State → Option PyNum) (st : SearchData),
       searchLoop gr isg h 0 st = .ok none) ∧
    (∀ (gr : State → Option (List (String × State × Int)))
       (isg : State → Option Bool) (h : State → Option PyNum)
       (fuel : Nat) (st : SearchData), st.queue = [] →
       searchLoop gr isg h (fuel + 1) st = .error .indexError) := by
  constructor
  · intro gr isg h st
    rfl
  · intro gr isg h fuel st hq
    rw [searchLoop, hq]

/-- C10: when the start state satisfies the goal and the limit permits at
least one iteration, the search returns the single element path at once;
the conclusion holds for every transition graph and heuristic, neither
being invoked. -/
theorem craft_C10 (gr : State → Option (List (String × State × Int)))
    (isg : State → Option Bool) (h : State → Option PyNum)
    (state : State) (limit : Nat)
    (hgoal : isg state = some true) (hpos : 1 ≤ limit) :
    search gr state isg limit h = .ok (some [(state, none)]) := by
  obtain ⟨n, rfl⟩ : ∃ n, limit = n + 1 := ⟨limit - 1, by omega⟩
  simp [search, searchLoop, searchInit, reconstruct, walk, dictGet, hgoal]

/-- C10, witness: the empty goal is satisfied at once. -/
theorem craft_C10_witness :
    search (graph []) [("x", (0 : Int))] (is_goal []) 5 heuristic =
      .ok (some [([("x", 0)], none)]) :=
  craft_C10 (graph []) (is_goal []) heuristic [("x", (0 : Int))] 5 rfl (by omega)

/-! C9: the bookkeeping tables never miss a state the search looks up. -/

lemma keysInv_init (state : State) : KeysInv (searchInit state) := by
  constructor
  · intro e he
    have : e = ((.fin 0 : PyNum), state) := by
      simpa [searchInit] using he
    rw [this]
    refine ⟨?_, ?_, ?_⟩ <;> simp [searchInit, dictGet]
  · intro s v hv
    simp only [searchInit, dictGet] at hv
    by_cases e : state = s
    · rw [if_pos e] at hv
      cases hv
      refine ⟨?_, ?_, ?_⟩
      · simp [searchInit, dictGet, e]
      · simp [searchInit, dictGet, e]
      · intro t ht
        cases ht
    · rw [if_neg e] at hv
      cases hv

lemma relax_keys (h : State → Option PyNum) (current : State) :
    ∀ (ns : List (String × State × Int)) (st : SearchData), KeysInv st →
      (dictGet st.cost_so_far current).isSome →
      (dictGet st.came_from current).isSome →
      (dictGet st.actions current).isSome →
      relax h current ns st = .error .externFail ∨
      ∃ st2, relax h current ns st = .ok st2 ∧ KeysInv st2 := by
  intro ns
  induction ns with
  | nil =>
    intro st hK _ _ _
    exact Or.inr ⟨st, rfl, hK⟩
  | cons tr rest ih =>
    intro st hK hc hcm ha
    obtain ⟨adj_action, adj_state, adj_cost⟩ := tr
    obtain ⟨ccur, hccur⟩ := Option.isSome_iff_exists.mp hc
    simp only [relax, hccur]
    by_cases himp : (match dictGet st.cost_so_far adj_state with
        | none => true
        | some old => decide (ccur + adj_cost < old)) = true
    · rw [if_pos himp]
      cases hh : h adj_state with
      | none => exact Or.inl rfl
      | some hv =>
        have hK2 : KeysInv
            { queue := qinsert (numAdd (ccur + adj_cost) hv, adj_state) st.queue,
              cost_so_far := dictSet st.cost_so_far adj_state (ccur + adj_cost),
              came_from := dictSet st.came_from adj_state (some current),
              actions := dictSet st.actions adj_state (some adj_action) } := by
          constructor
          · intro e he
            have he2 : e ∈ qinsert (numAdd (ccur + adj_cost) hv, adj_state) st.queue := he
            rcases mem_qinsert (numAdd (ccur + adj_cost) hv, adj_state) st.queue e he2
              with heq | hold
            · rw [heq]
              refine ⟨?_, ?_, ?_⟩ <;> simp [dictGet_dictSet]
            · obtain ⟨h1, h2, h3⟩ := hK.1 e hold
              exact ⟨dictGet_isSome_dictSet _ _ _ _ h1,
                dictGet_isSome_dictSet _ _ _ _ h2,
                dictGet_isSome_dictSet _ _ _ _ h3⟩
          · intro s v hv2
            have hv3 : dictGet (dictSet st.came_from adj_state (some current)) s = some v := hv2
            rw [dictGet_dictSet] at hv3
            by_cases e : adj_state = s
            · rw [if_pos e] at hv3
              cases hv3
              refine ⟨?_, ?_, ?_⟩
              · show (dictGet (dictSet st.cost_so_far adj_state (ccur + adj_cost)) s).isSome = true
                rw [dictGet_dictSet, if_pos e]
                rfl
              · show (dictGet (dictSet st.actions adj_state (some adj_action)) s).isSome = true
                rw [dictGet_dictSet, if_pos e]
                rfl
              · intro t ht
                cases ht
                exact ⟨dictGet_isSome_dictSet _ _ _ _ hcm,
                  dictGet_isSome_dictSet _ _ _ _ ha⟩
            · rw [if_neg e] at hv3
              obtain ⟨h1, h2, h3⟩ := hK.2 s v hv3
              refine ⟨dictGet_isSome_dictSet _ _ _ _ h1,
                dictGet_isSome_dictSet _ _ _ _ h2, ?_⟩
              intro t ht
              obtain ⟨h4, h5⟩ := h3 t ht
              exact ⟨dictGet_isSome_dictSet _ _ _ _ h4,
                dictGet_isSome_dictSet _ _ _ _ h5⟩
        exact ih _ hK2 (dictGet_isSome_dictSet _ _ _ _ hc)
          (dictGet_isSome_dictSet _ _ _ _ hcm)
          (dictGet_isSome_dictSet _ _ _ _ ha)
    · rw [if_neg himp]
      exact ih st hK hc hcm ha

lemma walk_ne_keyError (came_from : List (State × Option State))
    (actions : List (State × Option String))
    (closure : ∀ s v, dictGet came_from s = some v → ∀ t, v = some t →
      (dictGet came_from t).isSome ∧ (dictGet actions t).isSome) :
    ∀ (fuel : Nat) (prev : Option State) (path : Path),
      (∀ s, prev = some s →
        (dictGet came_from s).isSome ∧ (dictGet actions s).isSome) →
      walk came_from actions fuel prev path ≠ .error .keyError := by
  intro fuel
  induction fuel with
  | zero =>
    intro prev path hp
    cases prev with
    | none => simp [walk]
    | some s => simp [walk]
  | succ n ih =>
    intro prev path hp
    cases prev with
    | none => simp [walk]
    | some s =>
      obtain ⟨h1, h2⟩ := hp s rfl
      obtain ⟨a, ha⟩ := Option.isSome_iff_exists.mp h2
      obtain ⟨pv, hpv⟩ := Option.isSome_iff_exists.mp h1
      simp only [walk, ha, hpv]
      exact ih pv (path ++ [(s, a)]) (fun t ht => closure s pv hpv t ht)

lemma reconstruct_ne_keyError (st : SearchData) (current : State)
    (hK : KeysInv st)
    (hc : (dictGet st.cost_so_far current).isSome)
    (hcm : (dictGet st.came_from current).isSome)
    (ha : (dictGet st.actions current).isSome) :
    reconstruct st current ≠ .error .keyError := by
  obtain ⟨a, hav⟩ := Option.isSome_iff_exists.mp ha
  obtain ⟨prev, hpv⟩ := Option.isSome_iff_exists.mp hcm
  simp only [reconstruct, hav, hpv]
  have hclosure : ∀ s v, dictGet st.came_from s = some v → ∀ t, v = some t →
      (dictGet st.came_from t).isSome ∧ (dictGet st.actions t).isSome :=
    fun s v hv t ht => (hK.2 s v hv).2.2 t ht
  have hwalk := walk_ne_keyError st.came_from st.actions hclosure
    (st.came_from.length + 1) prev [(current, a)]
    (fun t ht => (hK.2 current prev hpv).2.2 t ht)
  cases hw : walk st.came_from st.actions (st.came_from.length + 1) prev
      [(current, a)] with
  | error e =>
    rw [hw] at hwalk
    intro hcontra
    apply hwalk
    injection hcontra with he
    rw [he]
  | ok path =>
    obtain ⟨cv, hcv⟩ := Option.isSome_iff_exists.mp hc
    rw [hcv]
    intro hcontra
    cases hcontra

lemma searchLoop_ne_keyError (gr : State → Option (List (String × State × Int)))
    (isg : State → Option Bool) (h : State → Option PyNum) :
    ∀ (fuel : Nat) (st : SearchData), KeysInv st →
      searchLoop gr isg h fuel st ≠ .error .keyError := by
  intro fuel
  induction fuel with
  | zero =>
    intro st _
    simp [searchLoop]
  | succ n ih =>
    intro st hK
    cases hq : st.queue with
    | nil => simp [searchLoop, hq]
    | cons e restQ =>
      obtain ⟨pr, current⟩ := e
      have hmem : ((pr, current) : PyNum × State) ∈ st.queue := by
        rw [hq]; exact List.mem_cons_self _ _
      obtain ⟨hc, hcm, ha⟩ := hK.1 _ hmem
      simp only [searchLoop, hq]
      intro hcontra
      split at hcontra
      · exact PyError.noConfusion (Except.error.inj hcontra)
      · rename_i hg
        split at hcontra
        · rename_i e2 hr
          have hne := reconstruct_ne_keyError st current hK hc hcm ha
          injection hcontra with he
          rw [he] at hr
          exact hne hr
        · exact Except.noConfusion hcontra
      · rename_i hg
        split at hcontra
        · exact PyError.noConfusion (Except.error.inj hcontra)
        · rename_i ns hgr
          have hK2 : KeysInv { st with queue := restQ } := by
            constructor
            · intro e2 he2
              have he3 : e2 ∈ restQ := he2
              exact hK.1 e2 (by rw [hq]; exact List.mem_cons_of_mem _ he3)
            · exact hK.2
          split at hcontra
          · rename_i e2 hrel
            injection hcontra with he
            rw [he] at hrel
            rcases relax_keys h current ns { st with queue := restQ } hK2 hc hcm ha
              with hrel2 | ⟨st2, hrel2, _⟩
            · rw [hrel] at hrel2
              exact PyError.noConfusion (Except.error.inj hrel2)
            · rw [hrel] at hrel2
              exact Except.noConfusion hrel2
          · rename_i st2 hrel
            rcases relax_keys h current ns { st with queue := restQ } hK2 hc hcm ha
              with hrel2 | ⟨st3, hrel2, hK3⟩
            · rw [hrel] at hrel2
              exact Except.noConfusion hrel2
            · rw [hrel] at hrel2
              have he := Except.ok.inj hrel2
              rw [← he] at hK3
              exact ih st2 hK3 hcontra

/-- C9: the bookkeeping invariant holds at initialization (every key of the
predecessor and action tables and every frontier state has a cost entry,
and predecessors are again table keys), and consequently no run of the
search ever aborts with a bookkeeping KeyError: the cost lookup during
neighbor expansion and the lookups of the backward traversal always find
their state. -/
theorem craft_C9 :
    (∀ state : State, KeysInv (searchInit state)) ∧
    (∀ (gr : State → Option (List (String × State × Int)))
       (isg : State → Option Bool) (h : State → Option PyNum)
       (state : State) (limit : Nat),
       notKeyMiss (search gr state isg limit h) = true) := by
  constructor
  · exact keysInv_init
  · intro gr isg h state limit
    have hne := searchLoop_ne_keyError gr isg h limit (searchInit state)
      (keysInv_init state)
    rw [search] at *
    cases hres : searchLoop gr isg h limit (searchInit state) with
    | ok v => rfl
    | error e =>
      cases e with
      | keyError => exact absurd hres hne
      | indexError => rfl
      | externFail => rfl
      | loopFuel => rfl

/-! C6: the returned path is a chronological, goal terminated recipe
chain. -/

lemma stepsTo_append (gr : State → Option (List (String × State × Int))) :
    ∀ (tl : Path) (prev u s : State) (a : Option String),
      stepsTo gr prev tl u →
      (∃ a2 l c, a = some a2 ∧ gr u = some l ∧ (a2, s, c) ∈ l) →
      stepsTo gr prev (tl ++ [(s, a)]) s := by
  intro tl
  induction tl with
  | nil =>
    intro prev u s a hsteps hedge
    have hpu : prev = u := hsteps
    rw [hpu]
    exact ⟨hedge, rfl⟩
  | cons e rest ih =>
    intro prev u s a hsteps hedge
    obtain ⟨s1, a1⟩ := e
    exact ⟨hsteps.1, ih s1 u s a hsteps.2 hedge⟩

lemma stepsTo_pathSteps (all_recipes : List Recipe) :
    ∀ (tl : Path) (prev last : State),
      stepsTo (graph all_recipes) prev tl last → pathSteps all_recipes prev tl := by
  intro tl
  induction tl with
  | nil => intro prev last _; trivial
  | cons e rest ih =>
    intro prev last hsteps
    obtain ⟨s, a⟩ := e
    obtain ⟨⟨a2, l, c, ha2, hgr, hmem⟩, hrest⟩ := hsteps
    obtain ⟨r, hr, hname, _, hchk, heff⟩ := graph_mem all_recipes prev l hgr a2 s c hmem
    refine ⟨⟨r, hr, ?_, hchk, heff⟩, ih s last hrest⟩
    rw [ha2, hname]

lemma walk_chain (came_from : List (State × Option State))
    (actions : List (State × Option String)) :
    ∀ (fuel : Nat) (prev : Option State) (acc res : Path),
      walk came_from actions fuel prev acc = .ok res →
      ∃ ext, res = acc ++ ext ∧ ChainFrom came_from actions prev ext := by
  intro fuel
  induction fuel with
  | zero =>
    intro prev acc res hw
    cases prev with
    | none =>
      have hres : acc = res := Except.ok.inj hw
      exact ⟨[], by rw [← hres, List.append_nil], ChainFrom.nil⟩
    | some s => cases hw
  | succ n ih =>
    intro prev acc res hw
    cases prev with
    | none =>
      have hres : acc = res := Except.ok.inj hw
      exact ⟨[], by rw [← hres, List.append_nil], ChainFrom.nil⟩
    | some s =>
      cases ha : dictGet actions s with
      | none => rw [walk, ha] at hw; cases hw
      | some a =>
        cases hpv : dictGet came_from s with
        | none => rw [walk, ha, hpv] at hw; cases hw
        | some pv =>
          have hw2 : walk came_from actions n pv (acc ++ [(s, a)]) = .ok res := by
            rw [walk, ha, hpv] at hw
            exact hw
          obtain ⟨ext2, hres, hchain⟩ := ih pv (acc ++ [(s, a)]) res hw2
          refine ⟨(s, a) :: ext2, ?_, ChainFrom.cons ha hpv hchain⟩
          rw [hres, List.append_assoc]
          rfl

lemma chain_good (gr : State → Option (List (String × State × Int)))
    (isg : State → Option Bool) (start : State)
    (came_from : List (State × Option State))
    (actions : List (State × Option String))
    (hL : LinkInv gr isg start came_from actions) :
    ∀ (prev : Option State) (ext : Path),
      ChainFrom came_from actions prev ext →
      (prev = none → ext = []) ∧
      (∀ t, prev = some t → ∃ tl, ext.reverse = (start, none) :: tl ∧
        stepsTo gr start tl t ∧ ∀ e ∈ ext, isg e.1 = some false ∨ e.1 = t) := by
  intro prev ext hchain
  induction hchain with
  | nil =>
    refine ⟨fun _ => rfl, fun t ht => ?_⟩
    cases ht
  | @cons s a prev2 ext2 ha hcm hch ih =>
    refine ⟨fun hcontra => (nomatch hcontra), fun t ht => ?_⟩
    have hts : t = s := by
      injection ht with h2
      rw [h2]
    subst hts
    cases prev2 with
    | none =>
      obtain ⟨hstart, hact⟩ := hL.2 t hcm
      have hanone : a = none := by
        rw [ha] at hact
        exact Option.some.inj hact
      have hext2 : ext2 = [] := ih.1 rfl
      subst hext2
      subst hanone
      refine ⟨[], ?_, ?_, ?_⟩
      · simp [hstart]
      · exact hstart.symm
      · intro e he
        have : e = (t, none) := by simpa using he
        rw [this]
        right
        rfl
    | some u =>
      obtain ⟨hfu, a2, l, c, hacts2, hgru, hmem⟩ := hL.1 t u hcm
      have ha2 : a = some a2 := by
        rw [ha] at hacts2
        exact Option.some.inj hacts2
      obtain ⟨tl2, hrev, hsteps, hall⟩ := ih.2 u rfl
      refine ⟨tl2 ++ [(t, a)], ?_, ?_, ?_⟩
      · rw [List.reverse_cons, hrev]
        rfl
      · exact stepsTo_append gr tl2 start u t a hsteps ⟨a2, l, c, ha2, hgru, hmem⟩
      · intro e he
        rcases List.mem_cons.mp he with heq | hm
        · right
          rw [heq]
        · rcases hall e hm with hfalse | hu
          · exact Or.inl hfalse
          · left
            rw [hu]
            exact hfu

lemma relax_link (gr : State → Option (List (String × State × Int)))
    (isg : State → Option Bool) (start : State)
    (h : State → Option PyNum) (current : State)
    (hgoal : isg current = some false)
    (l0 : List (String × State × Int)) (hgr : gr current = some l0) :
    ∀ (ns : List (String × State × Int)) (st : SearchData),
      (∀ x ∈ ns, x ∈ l0) →
      LinkInv gr isg start st.came_from st.actions →
      ∀ st2, relax h current ns st = .ok st2 →
      LinkInv gr isg start st2.came_from st2.actions := by
  intro ns
  induction ns with
  | nil =>
    intro st _ hL st2 hrel
    have : st = st2 := Except.ok.inj hrel
    rw [← this]
    exact hL
  | cons tr rest ih =>
    intro st hsub hL st2 hrel
    obtain ⟨adj_action, adj_state, adj_cost⟩ := tr
    have hsub2 : ∀ x ∈ rest, x ∈ l0 :=
      fun x hx => hsub x (List.mem_cons_of_mem _ hx)
    cases hcc : dictGet st.cost_so_far current with
    | none =>
      simp only [relax, hcc] at hrel
      exact Except.noConfusion hrel
    | some ccur =>
      simp only [relax, hcc] at hrel
      by_cases himp : (match dictGet st.cost_so_far adj_state with
          | none => true
          | some old => decide (ccur + adj_cost < old)) = true
      · rw [if_pos himp] at hrel
        cases hh : h adj_state with
        | none => rw [hh] at hrel; cases hrel
        | some hv =>
          rw [hh] at hrel
          have hL2 : LinkInv gr isg start
              (dictSet st.came_from adj_state (some current))
              (dictSet st.actions adj_state (some adj_action)) := by
            constructor
            · intro s t hcm2
              rw [dictGet_dictSet] at hcm2
              by_cases e : adj_state = s
              · rw [if_pos e] at hcm2
                have ht : t = current := by
                  injection hcm2 with h2
                  injection h2 with h3
                  rw [← h3]
                subst ht
                refine ⟨hgoal, adj_action, l0, adj_cost, ?_, hgr, ?_⟩
                · rw [dictGet_dictSet, if_pos e]
                · have := hsub (adj_action, adj_state, adj_cost) (List.mem_cons_self _ _)
                  rw [← e]
                  exact this
              · rw [if_neg e] at hcm2
                obtain ⟨hf, a2, l, c, hac, hg2, hm2⟩ := hL.1 s t hcm2
                refine ⟨hf, a2, l, c, ?_, hg2, hm2⟩
                rw [dictGet_dictSet, if_neg e]
                exact hac
            · intro s hcm2
              rw [dictGet_dictSet] at hcm2
              by_cases e : adj_state = s
              · rw [if_pos e] at hcm2
                injection hcm2 with h2
                cases h2
              · rw [if_neg e] at hcm2
                obtain ⟨hstart, hact⟩ := hL.2 s hcm2
                refine ⟨hstart, ?_⟩
                rw [dictGet_dictSet, if_neg e]
                exact hact
          exact ih _ hsub2 hL2 st2 hrel
      · rw [if_neg himp] at hrel
        exact ih st hsub2 hL st2 hrel

lemma reconstruct_good (gr : State → Option (List (String × State × Int)))
    (isg : State → Option Bool) (start : State)
    (st : SearchData) (current : State)
    (hL : LinkInv gr isg start st.came_from st.actions)
    (hg : isg current = some true) :
    ∀ res, reconstruct st current = .ok res →
      (∃ tl sn, res = (start, none) :: tl ∧ stepsTo gr start tl sn ∧
        isg sn = some true) ∧
      (∃ pre sn an, res = pre ++ [(sn, an)] ∧ isg sn = some true ∧
        ∀ e ∈ pre, isg e.1 = some false) := by
  intro res hres
  cases ha : dictGet st.actions current with
  | none =>
    simp only [reconstruct, ha] at hres
    exact Except.noConfusion hres
  | some a =>
    cases hcm : dictGet st.came_from current with
    | none =>
      simp only [reconstruct, ha, hcm] at hres
      exact Except.noConfusion hres
    | some prev =>
      cases hw : walk st.came_from st.actions (st.came_from.length + 1) prev
          [(current, a)] with
      | error e => simp only [reconstruct, ha, hcm, hw] at hres; cases hres
      | ok path1 =>
        cases hcv : dictGet st.cost_so_far current with
        | none =>
          simp only [reconstruct, ha, hcm, hw, hcv] at hres
          exact Except.noConfusion hres
        | some cv =>
          have hres2 : path1.reverse = res := by
            simp only [reconstruct, ha, hcm, hw, hcv] at hres
            exact Except.ok.inj hres
          obtain ⟨ext, hpath1, hchain⟩ :=
            walk_chain st.came_from st.actions (st.came_from.length + 1) prev
              [(current, a)] path1 hw
          have hresform : res = ext.reverse ++ [(current, a)] := by
            rw [← hres2, hpath1, List.reverse_append]
            rfl
          cases prev with
          | none =>
            have hext : ext = [] :=
              (chain_good gr isg start st.came_from st.actions hL none ext hchain).1 rfl
            obtain ⟨hstart, hact⟩ := hL.2 current hcm
            have hanone : a = none := by
              rw [ha] at hact
              exact Option.some.inj hact
            subst hext
            subst hanone
            subst hstart
            constructor
            · exact ⟨[], current, by rw [hresform]; rfl, rfl, hg⟩
            · refine ⟨[], current, none, by rw [hresform]; rfl, hg, ?_⟩
              intro e he
              cases he
          | some t =>
            obtain ⟨hft, a2, l, c, hacts2, hgru, hmem⟩ := hL.1 current t hcm
            have ha2 : a = some a2 := by
              rw [ha] at hacts2
              exact Option.some.inj hacts2
            obtain ⟨tl2, hrev, hsteps, hall⟩ :=
              (chain_good gr isg start st.came_from st.actions hL (some t) ext
                hchain).2 t rfl
            constructor
            · refine ⟨tl2 ++ [(current, a)], current, ?_, ?_, hg⟩
              · rw [hresform, hrev]
                rfl
              · exact stepsTo_append gr tl2 start t current a hsteps
                  ⟨a2, l, c, ha2, hgru, hmem⟩
            · refine ⟨ext.reverse, current, a, hresform, hg, ?_⟩
              intro e he
              have he2 : e ∈ ext := List.mem_reverse.mp he
              rcases hall e he2 with hfalse | ht
              · exact hfalse
              · rw [ht]
                exact hft

lemma linkInv_init (gr : State → Option (List (String × State × Int)))
    (isg : State → Option Bool) (state : State) :
    LinkInv gr isg state (searchInit state).came_from (searchInit state).actions := by
  constructor
  · intro s t hcm
    have hcm2 : dictGet [(state, (none : Option State))] s = some (some t) := hcm
    rw [dictGet] at hcm2
    by_cases e : state = s
    · rw [if_pos e] at hcm2
      injection hcm2 with h2
      cases h2
    · rw [if_neg e] at hcm2
      rw [dictGet] at hcm2
      cases hcm2
  · intro s hcm
    have hcm2 : dictGet [(state, (none : Option State))] s = some none := hcm
    rw [dictGet] at hcm2
    by_cases e : state = s
    · refine ⟨e.symm, ?_⟩
      show dictGet [(state, (none : Option String))] s = some none
      rw [dictGet, if_pos e]
    · rw [if_neg e] at hcm2
      rw [dictGet] at hcm2
      cases hcm2

lemma searchLoop_path (gr : State → Option (List (String × State × Int)))
    (isg : State → Option Bool) (h : State → Option PyNum) (start : State) :
    ∀ (fuel : Nat) (st : SearchData) (p : Path),
      LinkInv gr isg start st.came_from st.actions →
      searchLoop gr isg h fuel st = .ok (some p) →
      (∃ tl sn, p = (start, none) :: tl ∧ stepsTo gr start tl sn ∧
        isg sn = some true) ∧
      (∃ pre sn an, p = pre ++ [(sn, an)] ∧ isg sn = some true ∧
        ∀ e ∈ pre, isg e.1 = some false) := by
  intro fuel
  induction fuel with
  | zero =>
    intro st p _ hres
    injection hres with h2
    cases h2
  | succ n ih =>
    intro st p hL hres
    cases hq : st.queue with
    | nil =>
      rw [searchLoop, hq] at hres
      cases hres
    | cons e restQ =>
      obtain ⟨pr, current⟩ := e
      simp only [searchLoop, hq] at hres
      split at hres
      · cases hres
      · rename_i hg
        split at hres
        · cases hres
        · rename_i path0 hr
          have hp : path0 = p := by
            injection hres with h2
            exact Option.some.inj h2
          subst hp
          exact reconstruct_good gr isg start st current hL hg _ hr
      · rename_i hg
        split at hres
        · cases hres
        · rename_i ns hgr
          split at hres
          · cases hres
          · rename_i st2 hrel
            have hL2 : LinkInv gr isg start st2.came_from st2.actions :=
              relax_link gr isg start h current hg ns hgr ns
                { st with queue := restQ } (fun x hx => hx) hL st2 hrel
            exact ih st2 p hL2 hres

/-- C6: whenever the search run with the recipe transition graph returns a
path, the path starts at the start state with action none, every later
element names a recipe whose check passes in the preceding state and whose
effect yields the element state, the final state satisfies the goal
predicate, and no earlier state on the path does. -/
theorem craft_C6 (all_recipes : List Recipe) (state : State)
    (isg : State → Option Bool) (h : State → Option PyNum)
    (limit : Nat) (p : Path)
    (hres : search (graph all_recipes) state isg limit h = .ok (some p)) :
    (∃ tl, p = (state, none) :: tl ∧ pathSteps all_recipes state tl) ∧
    (∃ pre sn an, p = pre ++ [(sn, an)] ∧ isg sn = some true ∧
      ∀ e ∈ pre, isg e.1 = some false) := by
  rw [search] at hres
  obtain ⟨⟨tl, sn, hp, hsteps, _⟩, hsecond⟩ :=
    searchLoop_path (graph all_recipes) isg h state limit (searchInit state) p
      (linkInv_init (graph all_recipes) isg state) hres
  exact ⟨⟨tl, hp, stepsTo_pathSteps all_recipes tl state sn hsteps⟩, hsecond⟩

/-- C6, witness: the plank scenario returns the two element path, which the
theorem certifies as a chronological recipe chain ending in the goal. -/
theorem craft_C6_witness :
    (∃ tl, plankPath = (startWP, none) :: tl ∧ pathSteps [plankRecipe] startWP tl) ∧
    (∃ pre sn an, plankPath = pre ++ [(sn, an)] ∧
      is_goal plankGoal sn = some true ∧
      ∀ e ∈ pre, is_goal plankGoal e.1 = some false) :=
  craft_C6 [plankRecipe] startWP (is_goal plankGoal) (fun _ => some (.fin 0)) 3
    plankPath (by rfl)

end CraftPlanner
